import Mathlib

/-!
Verification of the rsmc memcached client core: binary-protocol codec,
consistent-hash ring, compression hooks, and client orchestration.

Machine integers are modelled as `Nat` with explicit `% 2 ^ w` truncation
where the Rust code converts or wraps.  Byte strings are `List Nat` whose
elements the code produces in the range `0..256`.  Rust panics (slice index
out of bounds, division by zero) are modelled as an explicit `panicked`
outcome, distinct from `Result::Err` values.
-/

namespace Rsmc

/-- Big-endian encoding of a `u8` field (`to_be_bytes`). -/
def u8be (n : Nat) : List Nat := [n % 256]

/-- Big-endian encoding of a `u16` field (`to_be_bytes`). -/
def u16be (n : Nat) : List Nat := [n / 256 % 256, n % 256]

/-- Big-endian encoding of a `u32` field (`to_be_bytes`). -/
def u32be (n : Nat) : List Nat :=
  [n / 16777216 % 256, n / 65536 % 256, n / 256 % 256, n % 256]

/-- Big-endian encoding of a `u64` field (`to_be_bytes`). -/
def u64be (n : Nat) : List Nat := u32be (n / 4294967296) ++ u32be n

/-- The 24-byte memcached binary-protocol header (`protocol/packet.rs`). -/
structure Header where
  magic : Nat
  opcode : Nat
  key_length : Nat
  extras_length : Nat
  data_type : Nat
  vbucket_or_status : Nat
  body_len : Nat
  opq : Nat
  cas : Nat
deriving DecidableEq

/-- Rust `Header::default()`: all fields zero. -/
def Header.default : Header := ⟨0, 0, 0, 0, 0, 0, 0, 0, 0⟩

/-- A packet: header plus owned extras, key and value buffers. -/
structure Packet where
  header : Header
  extras : List Nat
  key : List Nat
  value : List Nat
deriving DecidableEq

/-- Serialization `impl From<Packet> for Vec<u8>`: big-endian header fields
concatenated with extras, key, value. -/
def packetBytes (p : Packet) : List Nat :=
  u8be p.header.magic ++ u8be p.header.opcode ++ u16be p.header.key_length ++
  u8be p.header.extras_length ++ u8be p.header.data_type ++
  u16be p.header.vbucket_or_status ++ u32be p.header.body_len ++
  u32be p.header.opq ++ u64be p.header.cas ++
  p.extras ++ p.key ++ p.value

/-- Outcome of `Header::read_packet`.  `panicked` is the Rust panic raised by
`split_at` when the split index exceeds the buffer length. -/
inductive ReadPacketResult
  | ok (p : Packet)
  | bodySizeMismatch
  | panicked
deriving DecidableEq

/-- Rust `Header::read_packet`: reject a body whose length differs from
`body_len`, then `split_at(extras_length)` and `split_at(key_length)`.
Each `split_at` panics when its index exceeds the length of the buffer it
splits. -/
def Header.read_packet (h : Header) (body : List Nat) : ReadPacketResult :=
  if body.length ≠ h.body_len then .bodySizeMismatch
  else if h.extras_length ≤ body.length then
    let extras := body.take h.extras_length
    let rest := body.drop h.extras_length
    if h.key_length ≤ rest.length then
      .ok ⟨h, extras, rest.take h.key_length, rest.drop h.key_length⟩
    else .panicked
  else .panicked

/-- Whether a `ReadPacketResult` is a successful parse. -/
def ReadPacketResult.isOk : ReadPacketResult → Bool
  | .ok _ => true
  | _ => false

/-- The `Status` enumeration from `protocol/error.rs`. -/
inductive Status
  | unknownStatus
  | noError
  | keyNotFound
  | keyExists
  | valueTooLarge
  | invalidArguments
  | itemNotStored
  | incrDecrOnNonNumericValue
  | vbucketBelongsToAnotherServer
  | authenticationError
  | authenticationContinue
  | unknownCommand
  | outOfMemory
  | notSupported
  | internalError
  | busy
  | temporaryFailure
deriving DecidableEq

/-- Rust `impl From<u16> for Status`: total conversion, catch-all
`UnknownStatus`. -/
def statusFromCode (val : Nat) : Status :=
  if val = 0x00 then .noError
  else if val = 0x01 then .keyNotFound
  else if val = 0x02 then .keyExists
  else if val = 0x03 then .valueTooLarge
  else if val = 0x04 then .invalidArguments
  else if val = 0x05 then .itemNotStored
  else if val = 0x06 then .incrDecrOnNonNumericValue
  else if val = 0x07 then .vbucketBelongsToAnotherServer
  else if val = 0x08 then .authenticationError
  else if val = 0x09 then .authenticationContinue
  else if val = 0x81 then .unknownCommand
  else if val = 0x82 then .outOfMemory
  else if val = 0x83 then .notSupported
  else if val = 0x84 then .internalError
  else if val = 0x85 then .busy
  else if val = 0x86 then .temporaryFailure
  else .unknownStatus

/-- Rust `Packet::error_for_status`: `Ok` on zero `vbucket_or_status`, otherwise
the mapped `Status` as an error. -/
def Packet.error_for_status (p : Packet) : Except Status Unit :=
  match p.header.vbucket_or_status with
  | 0 => .ok ()
  | v => .error (statusFromCode v)

/-- Rust `Packet::new_request`: request header built from the supplied buffers,
with the Rust `as u16` / `as u8` / `as u32` length truncations. -/
def new_request (opcode : Nat) (key extras value : List Nat) : Packet :=
  { header :=
      { Header.default with
        magic := 0x80
        opcode := opcode
        key_length := key.length % 2 ^ 16
        extras_length := extras.length % 2 ^ 8
        body_len := (extras.length + key.length + value.length) % 2 ^ 32 }
    extras := extras
    key := key
    value := value }

/-- Extras of the store family: big-endian `flags` then `expire`
(`SetExtras` under a big-endian fixint encoding). -/
def setExtrasBytes (flags expire : Nat) : List Nat := u32be flags ++ u32be expire

/-- Rust `Packet::get`. -/
def Packet.get (key : List Nat) : Packet := new_request 0x00 key [] []

/-- Rust `Packet::getk`. -/
def Packet.getk (key : List Nat) : Packet := new_request 0x0c key [] []

/-- Rust `Packet::getkq`. -/
def Packet.getkq (key : List Nat) : Packet := new_request 0x0d key [] []

/-- Rust `Packet::set` applied to an already bincode-serialized value buffer. -/
def Packet.set (key value : List Nat) (flags expire : Nat) : Packet :=
  new_request 0x01 key (setExtrasBytes flags expire) value

/-- Rust `Packet::setq` applied to an already bincode-serialized value buffer. -/
def Packet.setq (key value : List Nat) (flags expire : Nat) : Packet :=
  new_request 0x11 key (setExtrasBytes flags expire) value

/-- Rust `Packet::delete`. -/
def Packet.delete (key : List Nat) : Packet := new_request 0x04 key [] []

/-- Rust `Packet::noop`. -/
def Packet.noop : Packet := new_request 0x0a [] [] []

/-! ## MurmurHash3, 32-bit variant (the `murmur3` crate's `murmur3_32`) -/

/-- Truncation to a `u32`. -/
def mod32 (n : Nat) : Nat := n % 2 ^ 32

/-- Rust `u32::rotate_left` for `x < 2 ^ 32`. -/
def rotl32 (x r : Nat) : Nat := mod32 (x <<< r) ||| (x >>> (32 - r))

/-- The murmur3 per-block scramble of a 4-byte word. -/
def murmurMix (k : Nat) : Nat :=
  mod32 (rotl32 (mod32 (k * 0xcc9e2d51)) 15 * 0x1b873593)

/-- One murmur3 round absorbing a scrambled word into the state. -/
def murmurStep (h k : Nat) : Nat :=
  mod32 (rotl32 (h ^^^ murmurMix k) 13 * 5 + 0xe6546b64)

/-- Little-endian value of up to four tail bytes. -/
def leVal (bytes : List Nat) : Nat := bytes.foldr (fun b acc => b + 256 * acc) 0

/-- Absorb all complete 4-byte blocks, then the 1-3 byte tail. -/
def murmurGo (h : Nat) : List Nat → Nat
  | b0 :: b1 :: b2 :: b3 :: rest =>
    murmurGo (murmurStep h (b0 + 256 * b1 + 65536 * b2 + 16777216 * b3)) rest
  | [] => h
  | tail => h ^^^ murmurMix (leVal tail)

/-- The murmur3 finalization mix. -/
def fmix32 (h : Nat) : Nat :=
  let h1 := h ^^^ (h >>> 16)
  let h2 := mod32 (h1 * 0x85ebca6b)
  let h3 := h2 ^^^ (h2 >>> 13)
  let h4 := mod32 (h3 * 0xc2b2ae35)
  h4 ^^^ (h4 >>> 16)

/-- Rust `murmur3_32(bytes, seed)` of the `murmur3` crate (x86 32-bit variant). -/
def murmur3_32 (bytes : List Nat) (seed : Nat) : Nat :=
  fmix32 (murmurGo (mod32 seed) bytes ^^^ mod32 bytes.length)

/-- Endpoint string `"localhost:11211"` as bytes. -/
def endpointA : List Nat := [108, 111, 99, 97, 108, 104, 111, 115, 116, 58, 49, 49, 50, 49, 49]

/-- Endpoint string `"localhost:11212"` as bytes. -/
def endpointB : List Nat := [108, 111, 99, 97, 108, 104, 111, 115, 116, 58, 49, 49, 50, 49, 50]

/-- Key string `"q"` as bytes. -/
def keyQ : List Nat := [113]

/-! ## Errors -/

/-- Rust `ProtocolError` from `protocol/error.rs`. -/
inductive ProtocolError
  | invalidMagic (b : Nat)
  | packetTooSmall
  | bodySizeMismatch
deriving DecidableEq

/-- The client `Error` enumeration.  The payloads of `IoError` and
`Bincode` are external library types and carry no information the core
inspects, so they are dropped. -/
inductive Error
  | ioError
  | protocol (e : ProtocolError)
  | bincode
  | status (s : Status)
deriving DecidableEq

/-! ## The consistent-hash ring (`ring.rs`) -/

/-- The loop of Rust's `slice::binary_search_by_key` comparing on the
first pair component: bisect `[left, right)` with `mid = left + size / 2`.
The loop halves the window each iteration, so a fuel of the slice length
always suffices; out-of-range reads cannot occur while `right ≤ a.length`
and `getD` supplies a dummy. -/
def bsGo (a : List (Nat × Nat)) (target : Nat) : Nat → Nat → Nat → Except Nat Nat
  | 0, left, _ => .error left
  | fuel + 1, left, right =>
    if left < right then
      if (a.getD (left + (right - left) / 2) (0, 0)).1 < target then
        bsGo a target fuel (left + (right - left) / 2 + 1) right
      else if target < (a.getD (left + (right - left) / 2) (0, 0)).1 then
        bsGo a target fuel left (left + (right - left) / 2)
      else .ok (left + (right - left) / 2)
    else .error left

/-- Rust `slice::binary_search_by_key(&target, |(k, _)| *k)` over the whole
slice: `Ok(i)` when the key is found at `i`, `Err(i)` with the insertion
point otherwise. -/
def binarySearchByKey (a : List (Nat × Nat)) (target : Nat) : Except Nat Nat :=
  bsGo a target a.length 0 a.length

/-- A ring: connections (modelled by the endpoint byte string that
`Connection::connect` received, as in the `TestConn` of the ring's own
tests) plus `(hash, node index)` buckets. -/
structure Ring where
  conns : List (List Nat)
  buckets : List (Nat × Nat)
deriving DecidableEq

/-- The `Ord` ordering of `(u32, usize)` pairs used by `sort_unstable`:
lexicographic.  This order is total and antisymmetric, so every sorted
permutation of a bucket list is the same list and the choice of sorting
algorithm is immaterial; we model the sort with a structurally recursive
insertion sort. -/
def pairLe (x y : Nat × Nat) : Bool :=
  decide (x.1 < y.1 ∨ (x.1 = y.1 ∧ x.2 ≤ y.2))

/-- Insertion into a `pairLe`-sorted list. -/
def insertLe (x : Nat × Nat) : List (Nat × Nat) → List (Nat × Nat)
  | [] => [x]
  | y :: ys => if pairLe x y then x :: y :: ys else y :: insertLe x ys

/-- The model of `buckets.sort_unstable()`. -/
def sortPairs : List (Nat × Nat) → List (Nat × Nat)
  | [] => []
  | x :: xs => insertLe x (sortPairs xs)

/-- The unsorted bucket list built by the construction loop: for node
`i` (in input order) and replica `j < share`, the bucket
`(murmur3_32(url_i, seed j), i)`. -/
def ringRawBuckets (urls : List (List Nat)) (share : Nat) : List (Nat × Nat) :=
  urls.enum.flatMap fun p => (List.range share).map fun j => (murmur3_32 p.2 j, p.1)

/-- Outcome of ring construction.  `panicked` is the Rust division-by-zero
panic in `size / urls.len()`. -/
inductive RingOut
  | ok (r : Ring)
  | err (e : Error)
  | panicked
deriving DecidableEq

/-- Rust `Ring::new_with_size`, parameterized by the abstract
`Connection::connect`.  `share = size / urls.len()` panics when `urls` is
empty; connects happen in input order and the first failure aborts. -/
def newWithSize (connect : List Nat → Except Error (List Nat))
    (urls : List (List Nat)) (size : Nat) : RingOut :=
  if urls.isEmpty then .panicked
  else
    match urls.mapM connect with
    | .error e => .err e
    | .ok conns =>
      .ok { conns := conns
            buckets := sortPairs (ringRawBuckets urls (size / urls.length)) }

/-- Ring construction with the always-succeeding test connection (the
`TestConn` of `ring.rs`, which just records the url). -/
def ringNew (urls : List (List Nat)) (size : Nat) : RingOut :=
  newWithSize Except.ok urls size

/-- The bucket index extracted from the search outcome:
`bucket_search.unwrap_or_else(|next_bucket| next_bucket)`. -/
def bsIdx (a : List (Nat × Nat)) (target : Nat) : Nat :=
  match binarySearchByKey a target with
  | .ok i => i
  | .error i => i

/-- Rust `Ring::find_bucket`: hash the key with seed 0, binary-search the
buckets, fall back to `buckets[0]` past the end.  Rust's
`unwrap_or(&self.buckets[0])` evaluates `buckets[0]` eagerly, so an empty
bucket list always panics (`none`). -/
def Ring.find_bucket (r : Ring) (key : List Nat) : Option Nat :=
  match r.buckets.head? with
  | none => none
  | some b0 =>
    some (r.buckets.getD (bsIdx r.buckets (murmur3_32 key 0)) b0).2

/-- The loop of `Ring::get_pipelines`: push each key, in input order, onto
the pipeline of the node `find_bucket` selects.  `none` models the panics
(empty bucket list in `find_bucket`, out-of-range `out[conn_index]`). -/
def pipeGo (r : Ring) : List (List Nat) → List (List (List Nat)) → Option (List (List (List Nat)))
  | [], out => some out
  | k :: ks, out =>
    match r.find_bucket k with
    | none => none
    | some i =>
      if i < out.length then pipeGo r ks (out.set i (out.getD i [] ++ [k]))
      else none

/-- Rust `Ring::get_pipelines`: one (possibly empty) pipeline per connection. -/
def Ring.get_pipelines (r : Ring) (keys : List (List Nat)) :
    Option (List (List (List Nat))) :=
  pipeGo r keys (List.replicate r.conns.length [])

/-- Rust `Ring::get_conns`: zip connections (represented by their index) with
their pipelines and keep only non-empty pipelines. -/
def Ring.get_conns (r : Ring) (keys : List (List Nat)) :
    Option (List (Nat × List (List Nat))) :=
  (r.get_pipelines keys).map fun ps =>
    ((List.range r.conns.length).zip ps).filter fun pr => !pr.2.isEmpty

/-! ## Compressors -/

/-- Rust `NoCompressor::compress`: the identity. -/
def noCompress (p : Packet) : Except Error Packet := .ok p

/-- Rust `NoCompressor::decompress`: the identity. -/
def noDecompress (p : Packet) : Except Error Packet := .ok p

/-- Outcome of a `ZlibCompressor` transform.  `panicked` is the Rust
index-out-of-bounds panic of `packet.extras[0] = _` on an empty extras
buffer. -/
inductive CompOut
  | ok (p : Packet)
  | err (e : Error)
  | panicked
deriving DecidableEq

/-- Rust `ZlibCompressor::compress`, parameterized by the abstract zlib encoder
`enc` (the `flate2` library).  Values shorter than `min_bytes` pass
through; otherwise the value is encoded, `body_len` is recomputed from the
header length fields in wrapping `u32` arithmetic, and the marker byte
`extras[0]` is set to 1 — panicking when `extras` is empty. -/
def zlibCompress (enc : List Nat → List Nat) (min_bytes : Nat) (p : Packet) : CompOut :=
  if p.value.length < min_bytes then .ok p
  else
    match p.extras with
    | [] => .panicked
    | _ :: rest =>
      let out := enc p.value
      .ok { p with
            header := { p.header with
              body_len := (p.header.key_length + p.header.extras_length +
                out.length % 2 ^ 32) % 2 ^ 32 }
            extras := 1 :: rest
            value := out }

/-- Rust `ZlibCompressor::decompress`, parameterized by the abstract zlib
decoder `dec` (which can fail on malformed input).  Packets whose
`extras.get(0)` is not `Some(1)` pass through; otherwise the value is
decoded, `body_len` recomputed, and the marker byte cleared. -/
def zlibDecompress (dec : List Nat → Except Error (List Nat)) (p : Packet) : CompOut :=
  match p.extras with
  | [] => .ok p
  | e0 :: rest =>
    if e0 = 1 then
      match dec p.value with
      | .error e => .err e
      | .ok out =>
        .ok { p with
              header := { p.header with
                body_len := (p.header.key_length + p.header.extras_length +
                  out.length % 2 ^ 32) % 2 ^ 32 }
              extras := 0 :: rest
              value := out }
    else .ok p

/-! ## Client orchestration (`client.rs`)

The `Connection` trait is an external byte stream; its derived
`read_packet` / `write_packet` framing is verified at the codec level, so
the client model works at packet granularity: a connection is the list of
packets written so far and the queue of response packets to be read. -/

/-- A model connection: packets written and responses pending. -/
structure MConn where
  written : List Packet
  inbox : List Packet
deriving DecidableEq

/-- Rust `Connection::write_packet`: compress then write. -/
def writePacket (comp : Packet → Except Error Packet) (c : MConn) (p : Packet) :
    Except Error MConn :=
  (comp p).map fun q => { c with written := c.written ++ [q] }

/-- Rust `Connection::read_packet`: read one response then decompress.  An
exhausted inbox is a transport failure. -/
def readPacketC (decomp : Packet → Except Error Packet) (c : MConn) :
    Except Error (Packet × MConn) :=
  match c.inbox with
  | [] => .error .ioError
  | p :: rest => (decomp p).map fun q => (q, { c with inbox := rest })

/-- Rust `Client::set`: write a `set` packet with extras `{flags 0, expire}`,
read one response packet, and return `Ok(())`.  The source never calls
`error_for_status` on the response. -/
def clientSet (comp decomp : Packet → Except Error Packet) (c : MConn)
    (key value : List Nat) (expire : Nat) : Except Error MConn :=
  match writePacket comp c (Packet.set key value 0 expire) with
  | .error e => .error e
  | .ok c1 =>
    match readPacketC decomp c1 with
    | .error e => .error e
    | .ok (_resp, c2) => .ok c2

/-- Rust `Client::delete`: write a `delete` packet, read one response packet,
and return `Ok(())`.  The source never calls `error_for_status` on the
response. -/
def clientDelete (comp decomp : Packet → Except Error Packet) (c : MConn)
    (key : List Nat) : Except Error MConn :=
  match writePacket comp c (Packet.delete key) with
  | .error e => .error e
  | .ok c1 =>
    match readPacketC decomp c1 with
    | .error e => .error e
    | .ok (_resp, c2) => .ok c2

/-! ## Concrete inputs and reference definitions used by the theorems -/

/-- The S1 "Hello" packet from the repository's own tests. -/
def pS1 : Packet := ⟨⟨0x80, 0x00, 5, 0, 0, 0, 5, 0, 0⟩, [], [72, 101, 108, 108, 111], []⟩

/-- A header whose `extras_length` exceeds `body_len`. -/
def hBad : Header := ⟨0x81, 0, 0, 1, 0, 0, 0, 0, 0⟩

/-- A response packet carrying the non-zero status 0x05 (ItemNotStored). -/
def respErr : Packet := ⟨⟨0x81, 0x01, 0, 0, 0, 5, 0, 0, 0⟩, [], [], []⟩

/-- A packet with empty extras and a one-byte value. -/
def pNoExtras : Packet := ⟨⟨0x80, 0, 1, 0, 0, 0, 2, 0, 0⟩, [], [107], [118]⟩

/-- A packet whose extras marker byte is already the non-zero value 2. -/
def pMarker : Packet := ⟨⟨0x80, 1, 1, 1, 0, 0, 2, 0, 0⟩, [2], [107], []⟩

/-- The packet `pMarker` after zlib compression with the identity byte
codec. -/
def pMarkerC : Packet := ⟨⟨0x80, 1, 1, 1, 0, 0, 2, 0, 0⟩, [1], [107], []⟩

/-- The packet `pMarkerC` after zlib decompression with the identity byte
codec. -/
def pMarkerD : Packet := ⟨⟨0x80, 1, 1, 1, 0, 0, 2, 0, 0⟩, [0], [107], []⟩

/-- The position `i` is the lower-bound position of `pos` in `a`:
everything before it hashes below `pos`, and the entry at `i` (when it
exists) hashes at or above `pos`. -/
def isLB (a : List (Nat × Nat)) (pos i : Nat) : Prop :=
  i ≤ a.length ∧ (∀ j, j < i → (a.getD j (0, 0)).1 < pos) ∧
    (i < a.length → pos ≤ (a.getD i (0, 0)).1)

/-- The first index whose hash is at least `pos` (the list length if
none), the reference lower bound. -/
def lbIdx (pos : Nat) : List (Nat × Nat) → Nat
  | [] => 0
  | b :: rest => if pos ≤ b.1 then 0 else lbIdx pos rest + 1

/-- Modelled from the spec's description of key lookup: the smallest
bucket whose hash is at least `pos`, wrapping to bucket index 0 when `pos`
exceeds every hash; used only as the reference against which
`Ring::find_bucket` is compared. -/
def specFindBucket (buckets : List (Nat × Nat)) (pos : Nat) : Option Nat :=
  match buckets.find? (fun b => pos ≤ b.1) with
  | some b => some b.2
  | none => buckets.head?.map Prod.snd

/-- The ring of the repository's `test_boundary_behavior` test: endpoints
`"localhost:11211"`, `"localhost:11212"`, bucket-count 2. -/
def ring2 : Ring := ⟨[endpointA, endpointB], [(748582396, 1), (1636863978, 0)]⟩

/-! ## Theorems -/

/-- The header portion of a serialized packet is exactly 24 bytes. -/
theorem headerBytes_length (h : Header) :
    (u8be h.magic ++ u8be h.opcode ++ u16be h.key_length ++
      u8be h.extras_length ++ u8be h.data_type ++ u16be h.vbucket_or_status ++
      u32be h.body_len ++ u32be h.opq ++ u64be h.cas).length = 24 := by
  simp [u8be, u16be, u32be, u64be]

/-- Serialization splits into the 24 header bytes and the body. -/
theorem packetBytes_split (p : Packet) :
    packetBytes p =
      (u8be p.header.magic ++ u8be p.header.opcode ++ u16be p.header.key_length ++
        u8be p.header.extras_length ++ u8be p.header.data_type ++
        u16be p.header.vbucket_or_status ++ u32be p.header.body_len ++
        u32be p.header.opq ++ u64be p.header.cas) ++
      (p.extras ++ (p.key ++ p.value)) := by
  simp [packetBytes]

/-- C1: for a packet whose header length fields agree with its buffers,
serialization yields `24 + extras_length + key_length + value_length`
bytes, and `Header::read_packet` applied to the body portion of those bytes
with the packet's own header returns the packet. -/
theorem C1_serialize_parse_roundtrip (p : Packet)
    (hk : p.header.key_length = p.key.length)
    (he : p.header.extras_length = p.extras.length)
    (hb : p.header.body_len = p.extras.length + p.key.length + p.value.length) :
    (packetBytes p).length =
      24 + p.header.extras_length + p.header.key_length + p.value.length ∧
    Header.read_packet p.header ((packetBytes p).drop 24) = .ok p := by
  have hdrop : (packetBytes p).drop 24 = p.extras ++ (p.key ++ p.value) := by
    rw [packetBytes_split, List.drop_left' (headerBytes_length p.header)]
  constructor
  · rw [packetBytes_split, List.length_append, headerBytes_length, hk, he]
    simp [Nat.add_assoc]
  · rw [hdrop]
    have hblen : (p.extras ++ (p.key ++ p.value)).length = p.header.body_len := by
      simp [hb]; omega
    unfold Header.read_packet
    rw [if_neg (by omega), he]
    rw [if_pos (by simp)]
    simp only [List.take_left, List.drop_left]
    rw [hk, if_pos (by simp)]
    simp only [List.take_left, List.drop_left]

/-- Witness for C1 at the S1 test packet. -/
theorem C1_witness :
    pS1.header.key_length = pS1.key.length ∧
    pS1.header.extras_length = pS1.extras.length ∧
    pS1.header.body_len = pS1.extras.length + pS1.key.length + pS1.value.length ∧
    ((packetBytes pS1).length =
        24 + pS1.header.extras_length + pS1.header.key_length + pS1.value.length ∧
      Header.read_packet pS1.header ((packetBytes pS1).drop 24) = .ok pS1) :=
  ⟨by decide, by decide, by decide,
    C1_serialize_parse_roundtrip pS1 (by decide) (by decide) (by decide)⟩

/-- C3 (amended): a body of the wrong length always gives
`BodySizeMismatch`; with the right length, parsing succeeds if and only if
`extras_length + key_length ≤ body_len`, partitioning the body as claimed,
and otherwise the `split_at` call panics instead of succeeding. -/
theorem C3_read_packet_cases (h : Header) (body : List Nat) :
    (body.length ≠ h.body_len → h.read_packet body = .bodySizeMismatch) ∧
    (body.length = h.body_len → h.extras_length + h.key_length ≤ body.length →
      h.read_packet body = .ok ⟨h, body.take h.extras_length,
        (body.drop h.extras_length).take h.key_length,
        (body.drop h.extras_length).drop h.key_length⟩) ∧
    (body.length = h.body_len → body.length < h.extras_length + h.key_length →
      h.read_packet body = .panicked) ∧
    ((h.read_packet body).isOk = true ↔
      body.length = h.body_len ∧ h.extras_length + h.key_length ≤ body.length) := by
  unfold Header.read_packet
  by_cases hlen : body.length = h.body_len
  · rw [if_neg (by omega)]
    by_cases hek : h.extras_length + h.key_length ≤ body.length
    · rw [if_pos (by omega), if_pos (by simp; omega)]
      refine ⟨fun hc => absurd hlen hc, fun _ _ => rfl, fun _ hc => absurd hc (by omega), ?_⟩
      simp only [ReadPacketResult.isOk]
      simp only [true_iff]
      omega
    · refine ⟨fun hc => absurd hlen hc, fun _ hc => absurd hc hek, fun _ _ => ?_, ?_⟩
      · by_cases hex : h.extras_length ≤ body.length
        · rw [if_pos hex, if_neg (by simp; omega)]
        · rw [if_neg hex]
      · by_cases hex : h.extras_length ≤ body.length
        · rw [if_pos hex, if_neg (by simp; omega)]
          simp [ReadPacketResult.isOk, hek]
        · rw [if_neg hex]
          simp [ReadPacketResult.isOk, hek]
  · rw [if_pos (by omega)]
    exact ⟨fun _ => rfl, fun hc => absurd hc hlen, fun hc => absurd hc hlen,
      by simp [ReadPacketResult.isOk, hlen]⟩

/-- Counterexample to C3 as stated: the empty body has exactly `body_len`
bytes, yet parsing neither succeeds nor returns `BodySizeMismatch` — the
`split_at(extras_length)` call panics. -/
theorem C3_counterexample :
    (List.length ([] : List Nat) = hBad.body_len) ∧
    (hBad.read_packet []).isOk = false ∧
    hBad.read_packet [] = .panicked := by
  refine ⟨rfl, ?_, ?_⟩ <;> decide

/-- Witness for C3 at the S2 `add("Hello", "World")` body. -/
theorem C3_witness :
    ((setExtrasBytes 0xdeadbeef 0x1c20 ++ ([72, 101, 108, 108, 111] ++ [87, 111, 114, 108, 100])).length ≠ (18 : Nat) → False) ∧
    (Header.read_packet ⟨0x80, 0x02, 5, 8, 0, 0, 18, 0, 0⟩
      (setExtrasBytes 0xdeadbeef 0x1c20 ++ ([72, 101, 108, 108, 111] ++ [87, 111, 114, 108, 100])) =
      .ok ⟨⟨0x80, 0x02, 5, 8, 0, 0, 18, 0, 0⟩, setExtrasBytes 0xdeadbeef 0x1c20,
        [72, 101, 108, 108, 111], [87, 111, 114, 108, 100]⟩) := by
  have h := C3_read_packet_cases ⟨0x80, 0x02, 5, 8, 0, 0, 18, 0, 0⟩
    (setExtrasBytes 0xdeadbeef 0x1c20 ++ ([72, 101, 108, 108, 111] ++ [87, 111, 114, 108, 100]))
  refine ⟨fun hc => hc (by decide), ?_⟩
  have := h.2.1 (by decide) (by decide)
  rw [this]
  decide

/-- C10: constructing a ring from an empty endpoint list never returns an
`Error` value: regardless of how `Connection::connect` behaves and of the
bucket-count, `size / urls.len()` divides by zero and panics. -/
theorem C10_empty_endpoints_panics
    (connect : List Nat → Except Error (List Nat)) (size : Nat) :
    newWithSize connect [] size = .panicked := rfl

/-- C2 (amended): `Client::set` writes its request packet and consumes
exactly one response packet, but returns `Ok(())` regardless of the
response's `vbucket_or_status`; likewise `Client::delete`.  Non-zero
statuses are not surfaced by these two operations. -/
theorem C2_set_delete_ignore_status (key value : List Nat) (expire : Nat)
    (resp : Packet) (rest : List Packet) :
    clientSet noCompress noDecompress ⟨[], resp :: rest⟩ key value expire =
      .ok ⟨[Packet.set key value 0 expire], rest⟩ ∧
    clientDelete noCompress noDecompress ⟨[], resp :: rest⟩ key =
      .ok ⟨[Packet.delete key], rest⟩ :=
  ⟨rfl, rfl⟩

/-- Counterexample to C2 as stated: the response's status is non-zero
(`error_for_status` would report `ItemNotStored`), yet both `set` and
`delete` return `Ok`. -/
theorem C2_counterexample :
    respErr.header.vbucket_or_status = 5 ∧
    Packet.error_for_status respErr = .error Status.itemNotStored ∧
    clientSet noCompress noDecompress ⟨[], [respErr]⟩ [107] [118] 0 =
      .ok ⟨[Packet.set [107] [118] 0 0], []⟩ ∧
    clientDelete noCompress noDecompress ⟨[], [respErr]⟩ [107] =
      .ok ⟨[Packet.delete [107]], []⟩ :=
  ⟨rfl, rfl, rfl, rfl⟩

/-- C7 (amended): on a packet with empty extras the zlib compressor
returns the packet unchanged only when the value is shorter than
`min_bytes`; when the value reaches `min_bytes` the marker-byte write
`extras[0] = 1` panics on the empty buffer. -/
theorem C7_empty_extras_compress (enc : List Nat → List Nat)
    (min_bytes : Nat) (p : Packet) (hemp : p.extras = []) :
    (p.value.length < min_bytes → zlibCompress enc min_bytes p = .ok p) ∧
    (min_bytes ≤ p.value.length → zlibCompress enc min_bytes p = .panicked) := by
  constructor
  · intro hlt
    simp [zlibCompress, hlt]
  · intro hge
    simp [zlibCompress, Nat.not_lt.mpr hge, hemp]

/-- Counterexample to C7 as stated: with `min_bytes = 1` the value is long
enough to compress, extras is empty, and `compress` panics instead of
returning the packet unchanged. -/
theorem C7_counterexample :
    pNoExtras.extras = [] ∧
    1 ≤ pNoExtras.value.length ∧
    zlibCompress (fun v => v) 1 pNoExtras = .panicked := by
  refine ⟨rfl, by decide, by decide⟩

/-- Witness for C7 at a concrete empty-extras packet. -/
theorem C7_witness :
    pNoExtras.extras = [] ∧
    ((pNoExtras.value.length < 2 → zlibCompress (fun v => v) 2 pNoExtras = .ok pNoExtras) ∧
      (2 ≤ pNoExtras.value.length → zlibCompress (fun v => v) 2 pNoExtras = .panicked)) :=
  ⟨rfl, C7_empty_extras_compress (fun v => v) 2 pNoExtras rfl⟩

/-- C6 (amended): `NoCompressor` returns its argument unchanged from both
transforms; and for any byte codec with `dec ∘ enc = ok`, the zlib
decompressor is a left inverse of the zlib compressor on packets whose
compression marker `extras[0]` is not already 1 — for packets long enough
to compress this requires the marker to be 0 and the header's `body_len`
to agree with the buffers, since both transforms recompute `body_len`. -/
theorem C6_compressor_roundtrip
    (enc : List Nat → List Nat) (dec : List Nat → Except Error (List Nat))
    (hrt : ∀ v, dec (enc v) = .ok v) (min_bytes : Nat) (p : Packet)
    (hsmall : p.value.length < min_bytes → p.extras.head? ≠ some 1)
    (hbig : min_bytes ≤ p.value.length →
      p.extras.head? = some 0 ∧
      p.header.body_len = (p.header.key_length + p.header.extras_length +
        p.value.length % 2 ^ 32) % 2 ^ 32) :
    (∀ q, noCompress q = .ok q ∧ noDecompress q = .ok q) ∧
    (∀ q, zlibCompress enc min_bytes p = .ok q → zlibDecompress dec q = .ok p) := by
  refine ⟨fun q => ⟨rfl, rfl⟩, fun q hq => ?_⟩
  by_cases hlt : p.value.length < min_bytes
  · simp only [zlibCompress, if_pos hlt, CompOut.ok.injEq] at hq
    subst hq
    have hne := hsmall hlt
    cases hxe : p.extras with
    | nil => simp [zlibDecompress, hxe]
    | cons a rest =>
      have ha : a ≠ 1 := by rw [hxe] at hne; simpa using hne
      simp [zlibDecompress, hxe, ha]
  · obtain ⟨h0, hbl⟩ := hbig (Nat.le_of_not_lt hlt)
    cases hxe : p.extras with
    | nil => rw [hxe] at h0; simp at h0
    | cons a rest =>
      have ha : a = 0 := by rw [hxe] at h0; simpa using h0
      subst ha
      simp only [zlibCompress, if_neg hlt, hxe, CompOut.ok.injEq] at hq
      subst hq
      simp only [zlibDecompress, if_pos rfl, hrt p.value]
      obtain ⟨⟨m, oc, kl, el, dt, vs, bl, oq, cs⟩, pe, pk, pv⟩ := p
      simp only at hxe hbl ⊢
      subst hxe
      simp [hbl]

/-- Counterexample to C6 as stated: for a packet whose `extras[0]` is
already non-zero (here 2), compress succeeds (with a byte codec whose
decoder inverts its encoder), but decompressing the result yields a packet
with `extras[0] = 0`, not the original. -/
theorem C6_counterexample :
    zlibCompress (fun v => v) 0 pMarker = .ok pMarkerC ∧
    zlibDecompress (fun v => .ok v) pMarkerC = .ok pMarkerD ∧
    pMarkerD ≠ pMarker := by
  refine ⟨by decide, by decide, by decide⟩

/-- Witness for C6: a concrete `set` packet with marker byte 0, a
one-byte value, `min_bytes = 1`, and the identity byte codec. -/
theorem C6_witness :
    (∀ q, noCompress q = .ok q ∧ noDecompress q = .ok q) ∧
    (∀ q, zlibCompress (fun v => v) 1 (Packet.set [107] [118] 0 300) = .ok q →
      zlibDecompress (fun v => .ok v) q = .ok (Packet.set [107] [118] 0 300)) :=
  C6_compressor_roundtrip (fun v => v) (fun v => .ok v) (fun v => rfl) 1
    (Packet.set [107] [118] 0 300) (by decide) (by decide)

/-! ## Binary search correctness -/

/-- Lower-bound positions are unique. -/
theorem isLB_unique {a : List (Nat × Nat)} {pos i i' : Nat}
    (h1 : isLB a pos i) (h2 : isLB a pos i') : i = i' := by
  by_contra hne
  rcases Nat.lt_or_ge i i' with hlt | hge
  · have hi : i < a.length := Nat.lt_of_lt_of_le hlt h2.1
    exact absurd (h2.2.1 i hlt) (Nat.not_lt.mpr (h1.2.2 hi))
  · have hlt : i' < i := Nat.lt_of_le_of_ne hge (Ne.symm hne)
    have hi : i' < a.length := Nat.lt_of_lt_of_le hlt h1.1
    exact absurd (h1.2.1 i' hlt) (Nat.not_lt.mpr (h2.2.2 hi))

/-- The reference index `lbIdx` is a lower-bound position. -/
theorem lbIdx_isLB (pos : Nat) : ∀ l : List (Nat × Nat), isLB l pos (lbIdx pos l) := by
  intro l
  induction l with
  | nil => exact ⟨Nat.le_refl 0, fun j hj => absurd hj (Nat.not_lt_zero j),
      fun h => absurd h (Nat.not_lt_zero 0)⟩
  | cons b rest ih =>
    by_cases hb : pos ≤ b.1
    · refine ⟨by simp [lbIdx, hb], fun j hj => by simp [lbIdx, hb] at hj,
        fun _ => by simp [lbIdx, hb]⟩
    · refine ⟨?_, ?_, ?_⟩
      · simpa [lbIdx, hb, Nat.succ_le_succ_iff] using ih.1
      · intro j hj
        simp only [lbIdx, hb, if_false] at hj
        match j with
        | 0 => simpa using Nat.lt_of_not_le hb
        | j + 1 =>
          have := ih.2.1 j (by omega)
          simpa using this
      · intro hlen
        simp only [lbIdx, hb, if_false] at hlen ⊢
        have := ih.2.2 (by simpa [Nat.succ_lt_succ_iff] using hlen)
        simpa using this

/-- The binary-search loop lands on the lower-bound position whenever the
hashes are strictly ascending and the window invariants hold. -/
theorem bsGo_isLB (a : List (Nat × Nat)) (pos : Nat)
    (hs : ∀ i j, i < j → j < a.length → (a.getD i (0, 0)).1 < (a.getD j (0, 0)).1) :
    ∀ n left right, right - left ≤ n → left ≤ right → right ≤ a.length →
      (∀ j, j < left → (a.getD j (0, 0)).1 < pos) →
      (∀ j, right ≤ j → j < a.length → pos ≤ (a.getD j (0, 0)).1) →
      isLB a pos (match bsGo a pos n left right with | .ok i => i | .error i => i) := by
  intro n
  induction n with
  | zero =>
    intro left right hn hlr hra hl hr
    show isLB a pos left
    exact ⟨by omega, hl, fun h => hr left (by omega) h⟩
  | succ n ih =>
    intro left right hn hlr hra hl hr
    simp only [bsGo]
    by_cases hlt : left < right
    · rw [if_pos hlt]
      by_cases hx : (a.getD (left + (right - left) / 2) (0, 0)).1 < pos
      · rw [if_pos hx]
        refine ih (left + (right - left) / 2 + 1) right (by omega) (by omega) hra ?_ hr
        intro j hj
        rcases Nat.lt_or_ge j (left + (right - left) / 2) with h1 | h2
        · exact Nat.lt_trans (hs j (left + (right - left) / 2) h1 (by omega)) hx
        · have hj' : j = left + (right - left) / 2 := by omega
          rw [hj']; exact hx
      · rw [if_neg hx]
        by_cases hy : pos < (a.getD (left + (right - left) / 2) (0, 0)).1
        · rw [if_pos hy]
          refine ih left (left + (right - left) / 2) (by omega) (by omega) (by omega) hl ?_
          intro j hj hja
          rcases Nat.lt_or_ge (left + (right - left) / 2) j with h1 | h2
          · exact Nat.le_of_lt (Nat.lt_trans hy (hs (left + (right - left) / 2) j h1 hja))
          · have hj' : j = left + (right - left) / 2 := by omega
            rw [hj']; exact Nat.le_of_lt hy
        · rw [if_neg hy]
          show isLB a pos (left + (right - left) / 2)
          refine ⟨by omega, ?_, fun _ => by omega⟩
          intro j hj
          have := hs j (left + (right - left) / 2) hj (by omega)
          omega
    · rw [if_neg hlt]
      show isLB a pos left
      exact ⟨by omega, hl, fun h => hr left (by omega) h⟩

/-- For strictly ascending hashes, `bsIdx` computes the lower bound. -/
theorem bsIdx_eq_lbIdx (a : List (Nat × Nat)) (pos : Nat)
    (hs : a.Pairwise (fun x y => x.1 < y.1)) : bsIdx a pos = lbIdx pos a := by
  have hs' : ∀ i j, i < j → j < a.length → (a.getD i (0, 0)).1 < (a.getD j (0, 0)).1 := by
    intro i j hij hj
    have hi : i < a.length := Nat.lt_trans hij hj
    have := (List.pairwise_iff_getElem.mp hs) i j hi hj hij
    simpa [List.getD_eq_getElem?_getD, List.getElem?_eq_getElem, hi, hj] using this
  have h := bsGo_isLB a pos hs' a.length 0 a.length (by omega) (by omega) (by omega)
    (fun j hj => absurd hj (Nat.not_lt_zero j)) (fun j hj hja => absurd hja (by omega))
  exact isLB_unique h (lbIdx_isLB pos a)

/-- Evaluating `find?` at the lower-bound predicate reads the entry at `lbIdx`. -/
theorem find?_lbIdx (pos : Nat) : ∀ l : List (Nat × Nat),
    l.find? (fun b => pos ≤ b.1) =
      if lbIdx pos l < l.length then some (l.getD (lbIdx pos l) (0, 0)) else none := by
  intro l
  induction l with
  | nil => simp [lbIdx]
  | cons b rest ih =>
    by_cases hb : pos ≤ b.1
    · simp [List.find?_cons, lbIdx, hb]
    · have hb' : ¬ (decide (pos ≤ b.1) = true) := by simpa using hb
      rw [List.find?_cons_of_neg _ (by simpa using hb), ih]
      simp only [lbIdx, hb, if_false, List.length_cons]
      by_cases hlen : lbIdx pos rest < rest.length
      · rw [if_pos hlen, if_pos (by omega)]
        simp
      · rw [if_neg hlen, if_neg (by omega)]

/-! ## Sorting facts -/

/-- The order `pairLe` is total. -/
theorem pairLe_total (x y : Nat × Nat) : pairLe x y = true ∨ pairLe y x = true := by
  simp only [pairLe, decide_eq_true_eq]
  omega

/-- The order `pairLe` is transitive. -/
theorem pairLe_trans {x y z : Nat × Nat}
    (h1 : pairLe x y = true) (h2 : pairLe y z = true) : pairLe x z = true := by
  simp only [pairLe, decide_eq_true_eq] at h1 h2 ⊢
  omega

/-- Inserting permutes to consing. -/
theorem insertLe_perm (x : Nat × Nat) : ∀ l, List.Perm (insertLe x l) (x :: l)
  | [] => .refl _
  | y :: ys => by
    simp only [insertLe]
    by_cases h : pairLe x y
    · rw [if_pos h]
    · rw [if_neg h]
      exact ((insertLe_perm x ys).cons y).trans (List.Perm.swap x y ys)

/-- The modelled sort is a permutation. -/
theorem sortPairs_perm : ∀ l, List.Perm (sortPairs l) l
  | [] => .refl _
  | x :: xs => (insertLe_perm x (sortPairs xs)).trans ((sortPairs_perm xs).cons x)

/-- Insertion preserves sortedness. -/
theorem insertLe_sorted (x : Nat × Nat) {l : List (Nat × Nat)}
    (h : l.Pairwise (fun a b => pairLe a b = true)) :
    (insertLe x l).Pairwise (fun a b => pairLe a b = true) := by
  induction l with
  | nil => simp [insertLe]
  | cons y ys ih =>
    rw [List.pairwise_cons] at h
    simp only [insertLe]
    by_cases hxy : pairLe x y = true
    · rw [if_pos hxy, List.pairwise_cons]
      refine ⟨?_, List.pairwise_cons.mpr h⟩
      intro z hz
      rcases List.mem_cons.mp hz with rfl | hz'
      · exact hxy
      · exact pairLe_trans hxy (h.1 z hz')
    · rw [if_neg hxy, List.pairwise_cons]
      have hyx : pairLe y x = true := (pairLe_total x y).resolve_left hxy
      refine ⟨?_, ih h.2⟩
      intro z hz
      rcases List.mem_cons.mp ((insertLe_perm x ys).mem_iff.mp hz) with rfl | hz'
      · exact hyx
      · exact h.1 z hz'

/-- The modelled sort sorts. -/
theorem sortPairs_sorted : ∀ l, (sortPairs l).Pairwise (fun a b => pairLe a b = true)
  | [] => .nil
  | x :: xs => insertLe_sorted x (sortPairs_sorted xs)

/-! ## Ring claims -/

/-- C5: on strictly ascending bucket hashes, `find_bucket` returns the
node of the smallest bucket whose hash is at least `murmur3_32(key, 0)`,
wrapping to bucket index 0 past the end; and on the two-endpoint
bucket-count-2 ring the sorted buckets and the lookup of `"q"` match the
repository's `test_boundary_behavior` expectations. -/
theorem C5_find_bucket_spec (r : Ring)
    (hs : r.buckets.Pairwise (fun x y => x.1 < y.1)) (key : List Nat) :
    r.find_bucket key = specFindBucket r.buckets (murmur3_32 key 0) ∧
    ringNew [endpointA, endpointB] 2 = .ok ring2 ∧
    ring2.buckets = [(748582396, 1), (1636863978, 0)] ∧
    ring2.find_bucket keyQ = some 1 := by
  refine ⟨?_, by decide, rfl, by decide⟩
  unfold Ring.find_bucket specFindBucket
  cases hbk : r.buckets with
  | nil => simp
  | cons b0 rest =>
    rw [bsIdx_eq_lbIdx _ _ (hbk ▸ hs), find?_lbIdx]
    simp only [List.head?_cons]
    by_cases hL : lbIdx (murmur3_32 key 0) (b0 :: rest) < (b0 :: rest).length
    · rw [if_pos hL]
      have hgd : (b0 :: rest).getD (lbIdx (murmur3_32 key 0) (b0 :: rest)) b0 =
          (b0 :: rest).getD (lbIdx (murmur3_32 key 0) (b0 :: rest)) (0, 0) := by
        simp [List.getD_eq_getElem?_getD, List.getElem?_eq_getElem hL]
      rw [hgd]
    · rw [if_neg hL]
      have hnone : (b0 :: rest)[lbIdx (murmur3_32 key 0) (b0 :: rest)]? = none := by
        rw [List.getElem?_eq_none_iff]
        omega
      simp [List.getD_eq_getElem?_getD, hnone]

/-- Mapping the always-succeeding connect returns the url list. -/
theorem mapM_ok : ∀ urls : List (List Nat),
    (urls.mapM fun u => (Except.ok u : Except Error (List Nat))) = .ok urls
  | [] => rfl
  | u :: us => by
    rw [List.mapM_cons, mapM_ok us]
    rfl

/-- Constructing a ring from a non-empty url list succeeds and yields the
sorted raw buckets. -/
theorem ringNew_ok (urls : List (List Nat)) (h : urls ≠ []) (size : Nat) :
    ringNew urls size =
      .ok ⟨urls, sortPairs (ringRawBuckets urls (size / urls.length))⟩ := by
  unfold ringNew newWithSize
  rw [if_neg (by simpa using h), mapM_ok]

/-- Length of the block-structured flatMap: `share` entries per element. -/
theorem flatMap_range_length (share : Nat) :
    ∀ L : List (Nat × List Nat),
      (L.flatMap fun p => (List.range share).map fun j => (murmur3_32 p.2 j, p.1)).length =
        L.length * share
  | [] => by simp
  | p :: l => by
    rw [List.flatMap_cons, List.length_append, flatMap_range_length share l]
    simp [Nat.succ_mul, Nat.add_comm]

/-- Each node contributes `share` raw buckets. -/
theorem ringRawBuckets_length (urls : List (List Nat)) (share : Nat) :
    (ringRawBuckets urls share).length = urls.length * share := by
  unfold ringRawBuckets
  rw [flatMap_range_length, List.enum_length]

/-- Counting one node's raw buckets reduces to a sum of indicator terms
over the enumeration. -/
theorem flatMap_range_countP (share i : Nat) :
    ∀ L : List (Nat × List Nat),
      ((L.flatMap fun p => (List.range share).map fun j => (murmur3_32 p.2 j, p.1)).countP
          fun b => b.2 == i) =
        (L.map fun p => if p.1 = i then share else 0).sum
  | [] => rfl
  | p :: l => by
    rw [List.flatMap_cons, List.countP_append, flatMap_range_countP share i l]
    simp only [List.map_cons, List.sum_cons]
    congr 1
    rw [List.countP_map]
    by_cases hpi : p.1 = i
    · have hfn : ((fun (b : Nat × Nat) => b.2 == i) ∘ fun j => (murmur3_32 p.2 j, p.1)) =
          fun _ => true := by
        funext j; simp [hpi]
      rw [hfn, List.countP_true, List.length_range, if_pos hpi]
    · have hfn : ((fun (b : Nat × Nat) => b.2 == i) ∘ fun j => (murmur3_32 p.2 j, p.1)) =
          fun _ => false := by
        funext j; simp [hpi]
      rw [hfn, List.countP_false, if_neg hpi]
      rfl

/-- Summing the indicator of a single index below `n` over `range n`. -/
theorem sum_ite_range (share i : Nat) :
    ∀ n, i < n → (((List.range n).map fun k => if k = i then share else 0)).sum = share := by
  intro n
  induction n with
  | zero => intro h; exact absurd h (Nat.not_lt_zero i)
  | succ n ih =>
    intro h
    rw [List.range_succ, List.map_append, List.sum_append]
    by_cases hin : i < n
    · rw [ih hin]
      have : n ≠ i := by omega
      simp [this]
    · have hni : n = i := by omega
      have hzero : (((List.range n).map fun k => if k = i then share else 0)).sum = 0 := by
        apply List.sum_eq_zero
        intro x hx
        obtain ⟨k, hk, rfl⟩ := List.mem_map.mp hx
        have : k ≠ i := by have := List.mem_range.mp hk; omega
        simp [this]
      rw [hzero]
      simp [hni]

/-- Witness for C5 at the test ring and the key `"q"`. -/
theorem C5_witness :
    ring2.buckets.Pairwise (fun x y => x.1 < y.1) ∧
    (ring2.find_bucket keyQ = specFindBucket ring2.buckets (murmur3_32 keyQ 0) ∧
      ringNew [endpointA, endpointB] 2 = .ok ring2 ∧
      ring2.buckets = [(748582396, 1), (1636863978, 0)] ∧
      ring2.find_bucket keyQ = some 1) :=
  ⟨by decide, C5_find_bucket_spec ring2 (by decide) keyQ⟩

/-- C4 (amended): from a non-empty endpoint list of length K and
bucket-count S, `Ring::new_with_size` builds a ring whose bucket list has
`K * ⌊S/K⌋` entries — not S when K does not divide S — with each node
owning exactly `⌊S/K⌋` buckets, and the buckets sorted ascending by hash;
the constructed bucket list is a value no later ring operation modifies. -/
theorem C4_ring_construction (urls : List (List Nat)) (size : Nat) (h : urls ≠ []) :
    ∃ r, ringNew urls size = .ok r ∧
      r.conns = urls ∧
      r.buckets.length = urls.length * (size / urls.length) ∧
      (∀ i, i < urls.length →
        r.buckets.countP (fun b => b.2 == i) = size / urls.length) ∧
      r.buckets.Pairwise (fun x y => x.1 ≤ y.1) := by
  refine ⟨_, ringNew_ok urls h size, rfl, ?_, ?_, ?_⟩
  · rw [(sortPairs_perm _).length_eq, ringRawBuckets_length]
  · intro i hi
    rw [(sortPairs_perm _).countP_eq]
    unfold ringRawBuckets
    rw [flatMap_range_countP]
    calc (urls.enum.map fun p => if p.1 = i then size / urls.length else 0).sum
        = (((urls.enum.map Prod.fst).map fun k =>
            if k = i then size / urls.length else 0)).sum := by
          rw [List.map_map]
          rfl
      _ = size / urls.length := by
          rw [List.enum_map_fst]
          exact sum_ite_range (size / urls.length) i urls.length hi
  · refine (sortPairs_sorted _).imp ?_
    intro a b hab
    simp only [pairLe, decide_eq_true_eq] at hab
    omega

/-- Counterexample to C4 as stated: two endpoints and bucket-count 3 yield
`2 * ⌊3/2⌋ = 2` buckets, not 3. -/
theorem C4_counterexample :
    ringNew [endpointA, endpointB] 3 = .ok ring2 ∧
    ring2.buckets.length = 2 ∧ (2 : Nat) ≠ 3 :=
  ⟨by decide, rfl, by decide⟩

/-- Witness for C4 at the two-endpoint, bucket-count-2 ring. -/
theorem C4_witness :
    ([endpointA, endpointB] : List (List Nat)) ≠ [] ∧
    ∃ r, ringNew [endpointA, endpointB] 2 = .ok r ∧
      r.conns = [endpointA, endpointB] ∧
      r.buckets.length =
        [endpointA, endpointB].length * (2 / [endpointA, endpointB].length) ∧
      (∀ i, i < [endpointA, endpointB].length →
        r.buckets.countP (fun b => b.2 == i) = 2 / [endpointA, endpointB].length) ∧
      r.buckets.Pairwise (fun x y => x.1 ≤ y.1) :=
  ⟨by decide, C4_ring_construction [endpointA, endpointB] 2 (by decide)⟩

/-- C9: every `(connection, pipeline)` pair yielded by `get_conns` has a
non-empty pipeline (the construction filters out empty ones), so the
sentinel extraction `pipeline.pop().unwrap()` at the head of each batch in
`get_multi` / `set_multi` always finds a last element. -/
theorem C9_pipelines_nonempty (r : Ring) (keys : List (List Nat))
    (ps : List (Nat × List (List Nat))) (hps : r.get_conns keys = some ps) :
    ∀ pr ∈ ps, pr.2 ≠ [] ∧ pr.2.getLast?.isSome := by
  intro pr hpr
  unfold Ring.get_conns at hps
  cases hq : r.get_pipelines keys with
  | none => rw [hq] at hps; simp at hps
  | some qs =>
    rw [hq] at hps
    simp only [Option.map_some', Option.some.injEq] at hps
    subst hps
    have hm := List.mem_filter.mp hpr
    have hemp : pr.2.isEmpty = false := by simpa using hm.2
    refine ⟨?_, ?_⟩
    · intro hnil
      rw [hnil] at hemp
      simp at hemp
    · rw [List.getLast?_isSome]
      intro hnil
      rw [hnil] at hemp
      simp at hemp

/-- Witness for C9 at the test ring with keys `"q"` and
`"localhost:11211"`. -/
theorem C9_witness :
    ring2.get_conns [keyQ, endpointA] = some [(0, [endpointA]), (1, [keyQ])] ∧
    ∀ pr ∈ ([(0, [endpointA]), (1, [keyQ])] : List (Nat × List (List Nat))),
      pr.2 ≠ [] ∧ pr.2.getLast?.isSome :=
  ⟨by decide, C9_pipelines_nonempty ring2 [keyQ, endpointA] _ (by decide)⟩

/-- On a non-empty bucket list, `find_bucket` returns the node index of
one of the buckets. -/
theorem find_bucket_some (r : Ring) (hne : r.buckets ≠ []) (key : List Nat) :
    ∃ i, r.find_bucket key = some i ∧ ∃ b ∈ r.buckets, b.2 = i := by
  cases hbk : r.buckets with
  | nil => exact absurd hbk hne
  | cons b0 rest =>
    unfold Ring.find_bucket
    rw [hbk]
    simp only [List.head?_cons]
    refine ⟨_, rfl, ?_⟩
    by_cases hL : bsIdx (b0 :: rest) (murmur3_32 key 0) < (b0 :: rest).length
    · have hmem : (b0 :: rest).getD (bsIdx (b0 :: rest) (murmur3_32 key 0)) b0 ∈ b0 :: rest := by
        rw [List.getD_eq_getElem?_getD, List.getElem?_eq_getElem hL]
        exact List.getElem_mem hL
      exact ⟨_, hmem, rfl⟩
    · have hd : (b0 :: rest).getD (bsIdx (b0 :: rest) (murmur3_32 key 0)) b0 = b0 := by
        rw [List.getD_eq_getElem?_getD, List.getElem?_eq_none (by omega)]
        rfl
      exact ⟨b0, List.mem_cons_self b0 rest, by rw [hd]⟩

/-- The pipeline-filling loop: starting from any buffer of `N` node lists,
it appends to list `n` exactly the keys routed to node `n`, in input
order. -/
theorem pipeGo_filter (r : Ring) (N : Nat)
    (hfb : ∀ k, ∃ i, r.find_bucket k = some i ∧ i < N) :
    ∀ (keys : List (List Nat)) (out : List (List (List Nat))), out.length = N →
      ∃ res, pipeGo r keys out = some res ∧ res.length = N ∧
        ∀ n, n < N → res.getD n [] =
          out.getD n [] ++ keys.filter fun k => r.find_bucket k == some n := by
  intro keys
  induction keys with
  | nil =>
    intro out hlen
    exact ⟨out, rfl, hlen, fun n hn => by simp⟩
  | cons k ks ih =>
    intro out hlen
    obtain ⟨i, hi, hiN⟩ := hfb k
    have hiout : i < out.length := by omega
    simp only [pipeGo, hi]
    rw [if_pos hiout]
    obtain ⟨res, hres, hreslen, hchar⟩ :=
      ih (out.set i (out.getD i [] ++ [k])) (by simpa using hlen)
    refine ⟨res, hres, hreslen, ?_⟩
    intro n hn
    rw [hchar n hn]
    by_cases hni : n = i
    · subst hni
      have hset : (out.set n (out.getD n [] ++ [k])).getD n [] = out.getD n [] ++ [k] := by
        rw [List.getD_eq_getElem?_getD, List.getElem?_set_self hiout]
        rfl
      rw [hset, List.filter_cons_of_pos (by simp [hi]), List.append_assoc]
      rfl
    · have hset : (out.set i (out.getD i [] ++ [k])).getD n [] = out.getD n [] := by
        rw [List.getD_eq_getElem?_getD, List.getElem?_set_ne (fun h => hni h.symm),
          ← List.getD_eq_getElem?_getD]
      rw [hset, List.filter_cons_of_neg (by simp [hi]; exact fun h => hni h.symm)]

/-- Consing onto one block of a nested list permutes to consing onto the
flattening. -/
theorem flatten_set_cons_perm {α : Type} (x : α) :
    ∀ (L : List (List α)) (i : Nat) (h : i < L.length),
      List.Perm ((L.set i (x :: L[i])).flatten) (x :: L.flatten)
  | [], i, h => absurd h (by simp)
  | l :: L, 0, _ => by simp
  | l :: L, i + 1, h => by
    simp only [List.set_cons_succ, List.flatten_cons, List.getElem_cons_succ]
    exact (List.Perm.append_left l (flatten_set_cons_perm x L i (by simpa using h))).trans
      List.perm_middle

/-- Flattening the per-node filters of a total routing function is a
permutation of the input keys. -/
theorem flatten_filter_range_perm (f : List Nat → Option Nat) (N : Nat)
    (hf : ∀ k, ∃ i, f k = some i ∧ i < N) :
    ∀ keys : List (List Nat),
      List.Perm (((List.range N).map fun n => keys.filter fun k => f k == some n).flatten)
        keys := by
  intro keys
  induction keys with
  | nil => simp
  | cons k ks ih =>
    obtain ⟨i, hi, hiN⟩ := hf k
    have hibound : i < ((List.range N).map fun n => ks.filter fun k' => f k' == some n).length := by
      simp [hiN]
    have hmap : ((List.range N).map fun n => (k :: ks).filter fun k' => f k' == some n) =
        ((List.range N).map fun n => ks.filter fun k' => f k' == some n).set i
          (k :: ((List.range N).map fun n => ks.filter fun k' => f k' == some n)[i]) := by
      apply List.ext_getElem (by simp)
      intro n h1 h2
      have hnN : n < N := by simpa using h1
      by_cases hni : n = i
      · subst hni
        rw [List.getElem_set_self (by simpa using h2)]
        simp only [List.getElem_map, List.getElem_range]
        rw [List.filter_cons_of_pos (by simp [hi])]
      · rw [List.getElem_set_ne (fun h => hni h.symm)]
        simp only [List.getElem_map, List.getElem_range]
        rw [List.filter_cons_of_neg (by simp [hi]; exact fun h => hni h.symm)]
    rw [hmap]
    exact (flatten_set_cons_perm k _ i hibound).trans (ih.cons k)

/-- C8: for any ring with a non-empty bucket list and in-range node
indices, `get_conns` succeeds, flattening its per-node pipelines is a
permutation of the input keys (so the multiset of keys is preserved), and
each per-node pipeline is a sublist of the input (so the relative input
order is preserved within every node). -/
theorem C8_get_conns_partition (r : Ring) (keys : List (List Nat))
    (hne : r.buckets ≠ [])
    (hidx : ∀ b ∈ r.buckets, b.2 < r.conns.length) :
    ∃ ps, r.get_conns keys = some ps ∧
      List.Perm ((ps.map Prod.snd).flatten) keys ∧
      ∀ pr ∈ ps, pr.2.Sublist keys := by
  have hfb : ∀ k, ∃ i, r.find_bucket k = some i ∧ i < r.conns.length := by
    intro k
    obtain ⟨i, hi, b, hb, hbi⟩ := find_bucket_some r hne k
    exact ⟨i, hi, hbi ▸ hidx b hb⟩
  obtain ⟨res, hres, hreslen, hchar⟩ := pipeGo_filter r r.conns.length hfb keys
    (List.replicate r.conns.length []) (by simp)
  have hresmap : res = (List.range r.conns.length).map
      fun n => keys.filter fun k => r.find_bucket k == some n := by
    apply List.ext_getElem (by simp [hreslen])
    intro n h1 h2
    have hn : n < r.conns.length := by rw [hreslen] at h1; exact h1
    have hgd := hchar n hn
    have hrepl : (List.replicate r.conns.length ([] : List (List Nat))).getD n [] = [] := by
      rw [List.getD_eq_getElem?_getD, List.getElem?_replicate]
      by_cases h : n < r.conns.length <;> simp [h]
    rw [hrepl, List.nil_append] at hgd
    have hres_n : res.getD n [] = res[n] := by
      rw [List.getD_eq_getElem?_getD, List.getElem?_eq_getElem h1]
      rfl
    rw [hres_n] at hgd
    rw [hgd]
    simp
  have hsnd : ∀ ps, r.get_conns keys = some ps →
      ps = ((List.range r.conns.length).zip res).filter fun pr => !pr.2.isEmpty := by
    intro ps hps
    unfold Ring.get_conns Ring.get_pipelines at hps
    rw [hres] at hps
    simpa using hps.symm
  refine ⟨((List.range r.conns.length).zip res).filter fun pr => !pr.2.isEmpty, ?_, ?_, ?_⟩
  · unfold Ring.get_conns Ring.get_pipelines
    rw [hres]
    rfl
  · -- flattening the kept pipelines is a permutation of the keys
    have hmapsnd :
        ((((List.range r.conns.length).zip res).filter fun pr => !pr.2.isEmpty).map Prod.snd) =
          res.filter fun l => !l.isEmpty := by
      have hf := List.filter_map (p := fun l : List (List Nat) => !l.isEmpty)
        Prod.snd ((List.range r.conns.length).zip res)
      have hmz : ((List.range r.conns.length).zip res).map Prod.snd = res :=
        List.map_snd_zip _ _ (by simp [hreslen])
      rw [hmz] at hf
      rw [hf]
      rfl
    rw [hmapsnd, List.flatten_filter_not_isEmpty, hresmap]
    exact flatten_filter_range_perm r.find_bucket r.conns.length hfb keys
  · intro pr hpr
    have hzip := List.mem_filter.mp hpr
    have hsndmem : pr.2 ∈ res := by
      obtain ⟨x, y⟩ := pr
      exact (List.of_mem_zip hzip.1).2
    rw [hresmap] at hsndmem
    obtain ⟨n, _, heq⟩ := List.mem_map.mp hsndmem
    rw [← heq]
    exact List.filter_sublist keys

/-- Witness for C8 at the test ring with keys `"q"` and
`"localhost:11211"`. -/
theorem C8_witness :
    ring2.buckets ≠ [] ∧
    (∀ b ∈ ring2.buckets, b.2 < ring2.conns.length) ∧
    ∃ ps, ring2.get_conns [keyQ, endpointA] = some ps ∧
      List.Perm ((ps.map Prod.snd).flatten) [keyQ, endpointA] ∧
      ∀ pr ∈ ps, pr.2.Sublist [keyQ, endpointA] :=
  ⟨by decide, by decide,
    C8_get_conns_partition ring2 [keyQ, endpointA] (by decide) (by decide)⟩

end Rsmc
